import Mathlib

/-!
Verification of the directory renamer in rename_dash_files.py.

The program walks a directory tree bottom-up (os.walk with topdown=False),
collects every file and directory whose base name begins with the literal
three-character sequence space-hyphen-space, and renames each one so that
the prefix is replaced by a single underscore, interactively resolving
name collisions.

The shallow embedding below models:
  * Python strings as Lean String (character based, as in CPython);
  * filesystem paths as lists of path components (FsPath);
  * the directory tree as an inductive Entry tree;
  * the filesystem state during execution as the list of existing paths;
  * the operating system rename call through an oracle OsEnv that can
    report an error for any attempted rename (modelling OSError);
  * operator input as a list of Option String values, where none models
    the 60 second timeout of get_input_with_timeout, and some line models
    a line read from stdin (stripped, as the code strips it);
  * the unbounded while loop of find_available_name through a fuel
    parameter (the Python loop has no bound; none models divergence).
-/

namespace Renamer

/-- A filesystem path as its list of components, relative to the root that
the program was invoked on. -/
abbrev FsPath := List String

/-- Model of the Python expression s.startswith(p) at character level,
computed on the character lists of the two strings. -/
def leadsWith : List Char → List Char → Bool
  | [], _ => true
  | _ :: _, [] => false
  | p :: ps, c :: cs => (p == c) && leadsWith ps cs

/-- Model of the Python expression s.startswith(p). -/
def pyStartswith (s p : String) : Bool :=
  leadsWith p.toList s.toList

/-- Model of the Python slice s[n:] (characters dropped from the front). -/
def pyDrop (s : String) (n : Nat) : String :=
  String.mk (s.toList.drop n)

/-- Line 92 of the source: the new base name is an underscore followed by
the original base name with its first three characters removed. -/
def newBaseName (old_name : String) : String :=
  "_" ++ pyDrop old_name 3

/-- The base name of a path (Path.name in the source). -/
def pathName (p : FsPath) : String :=
  p.getLastD ""

/-- The parent directory of a path (Path.parent in the source). -/
def pathParent (p : FsPath) : FsPath :=
  p.dropLast

/-- Rendering of a path for log messages (str of a Path in the source). -/
def pathStr (p : FsPath) : String :=
  String.intercalate "/" p

/-- Line 93 of the source: the desired target path of a candidate, namely
its parent directory joined with the computed new base name. -/
def targetPath (item : FsPath) : FsPath :=
  pathParent item ++ [newBaseName (pathName item)]

/-- A directory entry of the tree under the root: a file with its name, or
a directory with its name and its children. -/
inductive Entry where
  | file : String → Entry
  | dir : String → List Entry → Entry

/-- The base name of an entry. -/
def entryName : Entry → String
  | .file n => n
  | .dir n _ => n

/-- The names of the directory children of a directory, in listing order
(the dirnames component of an os.walk triple). -/
def dirNames (cs : List Entry) : List String :=
  cs.filterMap fun e => match e with
    | .dir n _ => some n
    | .file _ => none

/-- The names of the file children of a directory, in listing order
(the filenames component of an os.walk triple). -/
def fileNames (cs : List Entry) : List String :=
  cs.filterMap fun e => match e with
    | .file n => some n
    | .dir _ _ => none

/-- One triple yielded by os.walk: dirpath, dirnames, filenames. -/
abbrev WalkTriple := FsPath × List String × List String

/-- The triples yielded by os.walk(root, topdown=False) for the subtrees
rooted at the children of the directory at path p: for each directory
child, first the triples of its own subtree, then its own triple; files
yield no triple. This is the bottom-up (post-order) order of CPython. -/
def walkChildren : FsPath → List Entry → List WalkTriple
  | _, [] => []
  | p, .file _ :: rest => walkChildren p rest
  | p, .dir n cs :: rest =>
      (walkChildren (p ++ [n]) cs ++ [(p ++ [n], dirNames cs, fileNames cs)])
        ++ walkChildren p rest
termination_by _ cs => sizeOf cs
decreasing_by all_goals (simp; try omega)

/-- All triples of os.walk(root, topdown=False): the subtree triples of
every child, followed by the triple of the root itself. -/
def os_walk_bottomup (root : List Entry) : List WalkTriple :=
  walkChildren [] root ++ [([], dirNames root, fileNames root)]

/-- Lines 71 to 79 of the source, for a single walk triple: the files of
the triple whose name starts with space-hyphen-space, then the
directories of the triple whose name starts with space-hyphen-space,
each joined onto the dirpath of the triple. -/
def tripleItems (t : WalkTriple) : List FsPath :=
  ((t.2.2.filter fun n => pyStartswith n " - ").map fun n => t.1 ++ [n])
    ++ ((t.2.1.filter fun n => pyStartswith n " - ").map fun n => t.1 ++ [n])

/-- Lines 66 to 79 of the source: the ordered list items_to_rename,
collected over the bottom-up walk of the tree. -/
def collectItems (root : List Entry) : List FsPath :=
  (os_walk_bottomup root).flatMap tripleItems

/-- No string occurs twice in the list (used to state that a real
directory never holds two children with the same name). -/
def nodupBool : List String → Bool
  | [] => true
  | n :: rest => (!(decide (n ∈ rest))) && nodupBool rest

/-- Every directory of the forest has children with pairwise distinct
names (checked recursively below the top level). -/
def wfAux : List Entry → Bool
  | [] => true
  | .file _ :: rest => wfAux rest
  | .dir _ cs :: rest => (nodupBool (cs.map entryName) && wfAux cs) && wfAux rest
termination_by cs => sizeOf cs
decreasing_by all_goals (simp; try omega)

/-- Well-formedness of the tree under the root as a real filesystem tree:
sibling names are pairwise distinct at every level. -/
def wfEntries (cs : List Entry) : Bool :=
  nodupBool (cs.map entryName) && wfAux cs

/-- Membership of a relative path in the tree: the path addresses a file
or directory somewhere under the root. -/
inductive HasPath : List Entry → FsPath → Prop where
  | here {cs : List Entry} {e : Entry} : e ∈ cs → HasPath cs [entryName e]
  | nested {cs : List Entry} {n : String} {cs' : List Entry} {q : FsPath} :
      Entry.dir n cs' ∈ cs → HasPath cs' q → HasPath cs (n :: q)

/-- Path q strictly extends path p: q addresses something nested strictly
inside the directory addressed by p. -/
def StrictExt (p q : FsPath) : Prop :=
  ∃ t, t ≠ [] ∧ q = p ++ t

/-- The filesystem state during execution: the list of paths that
currently exist (relative to the root). -/
abbrev Fs := List FsPath

/-- Model of the pathlib call path.exists(). -/
def fsExists (fs : Fs) (p : FsPath) : Bool :=
  decide (p ∈ fs)

/-- Model of a successful os rename of src to dst: every existing path
equal to src, or nested inside it, is moved below dst. -/
def fsRename (fs : Fs) (src dst : FsPath) : Fs :=
  fs.map fun q => if q.take src.length = src then dst ++ q.drop src.length else q

/-- All paths existing under a tree of entries, relative to the root. -/
def fsOfEntries : List Entry → Fs
  | [] => []
  | .file n :: rest => [n] :: fsOfEntries rest
  | .dir n cs :: rest =>
      ([n] :: (fsOfEntries cs).map fun q => n :: q) ++ fsOfEntries rest
termination_by cs => sizeOf cs
decreasing_by all_goals (simp; try omega)

/-- Lines 40 to 42 of the source, following pathlib: the index of the
last dot of a name, when it has one. -/
def lastDotIndex (name : String) : Option Nat :=
  match name.toList.reverse.findIdx? (fun c => c == '.') with
  | none => none
  | some j => some (name.toList.length - 1 - j)

/-- pathlib Path.stem of a bare name: the name up to its last dot, when
that dot is neither the first nor the last character. -/
def pyStem (name : String) : String :=
  match lastDotIndex name with
  | some i =>
      if 0 < i ∧ i < name.toList.length - 1 then String.mk (name.toList.take i)
      else name
  | none => name

/-- pathlib Path.suffix of a bare name: the name from its last dot on,
when that dot is neither the first nor the last character. -/
def pySuffix (name : String) : String :=
  match lastDotIndex name with
  | some i =>
      if 0 < i ∧ i < name.toList.length - 1 then String.mk (name.toList.drop i)
      else ""
  | none => ""

/-- Line 46 of the source: the candidate name probed at a given counter,
stem underscore counter suffix. -/
def probeName (original_name : String) (counter : Nat) : String :=
  pyStem original_name ++ "_" ++ toString counter ++ pySuffix original_name

/-- Lines 44 to 50 of the source: probe counters in increasing order and
return the first probed path that does not exist. The Python loop is
unbounded; fuel models the number of probes still allowed, and none
models a run that found no free name within them. -/
def findLoop (fs : Fs) (base_path : FsPath) (original_name : String) :
    Nat → Nat → Option FsPath
  | _, 0 => none
  | counter, fuel + 1 =>
      let new_path := base_path ++ [probeName original_name counter]
      if fsExists fs new_path then findLoop fs base_path original_name (counter + 1) fuel
      else some new_path

/-- Lines 29 to 50 of the source: find_available_name starts probing at
counter 1. -/
def find_available_name (fs : Fs) (base_path : FsPath) (original_name : String)
    (fuel : Nat) : Option FsPath :=
  findLoop fs base_path original_name 1 fuel

/-- Lines 7 to 27 of the source: the bounded wait for one line of stdin.
The argument models what arrives within the 60 second window: none for
nothing (timeout), some line for a line, which the code strips. -/
def get_input_with_timeout (stdin_line : Option String) : Option String :=
  match stdin_line with
  | some line => some line.trim
  | none => none

/-- Line 110 of the source: a response triggers the numbered rename
exactly when it is truthy (a non-empty string) and lowercases to r or
rename; None (timeout) and every other response lead to a skip. -/
def renameChosen (response : Option String) : Bool :=
  match response with
  | none => false
  | some r => (!(r == "")) && (r.toLower == "r" || r.toLower == "rename")

/-- The operating system as seen by the rename call: for a given
filesystem state and a requested rename, either an error text (the
OSError the call raises) or none for success. -/
structure OsEnv where
  renameErr : Fs → FsPath → FsPath → Option String

/-- The mutable state threaded through the loop of lines 90 to 127:
the filesystem, the remaining operator input, the counters renamed_count
and skipped_items, and the log printed so far. -/
structure RunState where
  fs : Fs
  inputs : List (Option String)
  renamed_count : Nat
  skipped_items : List String
  output : List String
deriving DecidableEq

/-- Lines 95 to 99 of the source: the line printed for one item during a
dry run, a conflict line when the target exists, otherwise a would-rename
line. -/
def dryRunLine (fs : Fs) (item : FsPath) : String :=
  if fsExists fs (targetPath item) then
    "[DRY RUN] Conflict: " ++ pathStr item ++ " -> " ++ pathStr (targetPath item)
      ++ " (target exists)"
  else
    "[DRY RUN] Would rename: " ++ pathStr item ++ " -> " ++ pathStr (targetPath item)

/-- Line 126 of the source: the error line logged when a rename raises. -/
def renameErrorLine (item : FsPath) (e : String) : String :=
  "Error renaming " ++ pathStr item ++ ": " ++ e

/-- Lines 90 to 127 of the source: processing of a single candidate.
Returns none only when find_available_name ran out of fuel, modelling a
diverging probe loop; the fuel one more than the number of existing
paths matches the real filesystem, where only finitely many names are
taken. -/
def processItem (env : OsEnv) (dry_run : Bool) (st : RunState) (item : FsPath) :
    Option RunState :=
  let old_name := pathName item
  let new_name := newBaseName old_name
  let new_path := pathParent item ++ [new_name]
  if dry_run then
    some { st with output := st.output ++ [dryRunLine st.fs item] }
  else
    if fsExists st.fs new_path then
      let response := get_input_with_timeout (st.inputs.headD none)
      let st1 := { st with
        inputs := st.inputs.tail,
        output := st.output ++ ["Conflict: Target already exists: " ++ pathStr new_path] }
      if renameChosen response then
        match find_available_name st1.fs (pathParent item) new_name (st1.fs.length + 1) with
        | none => none
        | some new_path2 =>
          match env.renameErr st1.fs item new_path2 with
          | some e =>
              some { st1 with
                output := st1.output ++ [renameErrorLine item e],
                skipped_items := st1.skipped_items ++ [pathStr item] }
          | none =>
              some { st1 with
                fs := fsRename st1.fs item new_path2,
                output := st1.output ++ ["Renamed: " ++ old_name ++ " -> " ++ pathName new_path2],
                renamed_count := st1.renamed_count + 1 }
      else
        some { st1 with
          output := st1.output ++ ["Skipped: " ++ old_name],
          skipped_items := st1.skipped_items ++ [pathStr item] }
    else
      match env.renameErr st.fs item new_path with
      | some e =>
          some { st with
            output := st.output ++ [renameErrorLine item e],
            skipped_items := st.skipped_items ++ [pathStr item] }
      | none =>
          some { st with
            fs := fsRename st.fs item new_path,
            output := st.output ++ ["Renamed: " ++ old_name ++ " -> " ++ new_name],
            renamed_count := st.renamed_count + 1 }

/-- The loop of line 90: process the candidates in order, threading the
state. -/
def processItems (env : OsEnv) (dry_run : Bool) : RunState → List FsPath → Option RunState
  | st, [] => some st
  | st, item :: rest =>
      match processItem env dry_run st item with
      | none => none
      | some st1 => processItems env dry_run st1 rest

/-- The observable outcome of one invocation of the renamer. -/
structure RunResult where
  items : List FsPath
  finalFs : Fs
  renamed_count : Nat
  skipped_items : List String
  output : List String
deriving DecidableEq

/-- Lines 52 to 136 of the source. The root argument is none when the
given root path does not exist, some entries for the tree under it.
The quotes of the Python messages are elided in the modelled log lines. -/
def rename_dash_prefix (env : OsEnv) (root_path : String) (root : Option (List Entry))
    (inputs : List (Option String)) (dry_run : Bool) : Option RunResult :=
  match root with
  | none =>
      some { items := [], finalFs := [], renamed_count := 0, skipped_items := [],
             output := ["Error: Path " ++ root_path ++ " does not exist"] }
  | some entries =>
      let fs0 := fsOfEntries entries
      let items_to_rename := collectItems entries
      if items_to_rename = [] then
        some { items := [], finalFs := fs0, renamed_count := 0, skipped_items := [],
               output := ["No files or directories found starting with - "] }
      else
        (processItems env dry_run
            { fs := fs0, inputs := inputs, renamed_count := 0, skipped_items := [],
              output := ["Found " ++ toString items_to_rename.length ++ " item(s) to rename:"] }
            items_to_rename).map fun st =>
          { items := items_to_rename, finalFs := st.fs, renamed_count := st.renamed_count,
            skipped_items := st.skipped_items,
            output := st.output ++
              (if dry_run then ["Dry run complete. Run with --execute to actually rename files."]
               else ["Successfully renamed " ++ toString st.renamed_count ++ " item(s)"]) }

/-- The items contributed to items_to_rename by the walk starting at the
directory of path p with children cs: the items of the walk triples of
the subtrees of its children, then the items of its own triple. The run
over the whole tree is walkFlatFull at the root path. -/
def walkFlatFull (p : FsPath) (cs : List Entry) : List FsPath :=
  (walkChildren p cs).flatMap tripleItems
    ++ tripleItems (p, dirNames cs, fileNames cs)

/-! ## Helper lemmas -/

lemma leadsWith_iff (p s : List Char) : leadsWith p s = true ↔ ∃ t, s = p ++ t := by
  induction p generalizing s with
  | nil => simp [leadsWith]
  | cons a ps ih =>
    cases s with
    | nil => simp [leadsWith]
    | cons c cs =>
      simp only [leadsWith, Bool.and_eq_true, beq_iff_eq, ih, List.cons_append,
        List.cons.injEq]
      constructor
      · rintro ⟨rfl, t, rfl⟩
        exact ⟨t, rfl, rfl⟩
      · rintro ⟨t, rfl, rfl⟩
        exact ⟨rfl, t, rfl⟩

lemma pyStartswith_iff (s p : String) :
    pyStartswith s p = true ↔ ∃ t, s.data = p.data ++ t := by
  simpa [pyStartswith, String.toList] using leadsWith_iff p.data s.data

lemma startswith_dash (name : String) (h : pyStartswith name " - " = true) :
    ∃ t, name.data = ' ' :: '-' :: ' ' :: t := by
  have h2 := (pyStartswith_iff name " - ").1 h
  simpa using h2

/-! ## C1: the computed new base name -/

/-- C1: for every candidate base name starting with the three characters
space-hyphen-space, the computed new base name is the underscore
concatenated with the original name minus its first three characters; it
is two characters shorter and begins with an underscore. -/
theorem newBaseName_spec (name : String) (h : pyStartswith name " - " = true) :
    newBaseName name = "_" ++ pyDrop name 3 ∧
    (newBaseName name).length = name.length - 2 ∧
    pyStartswith (newBaseName name) "_" = true := by
  obtain ⟨t, ht⟩ := startswith_dash name h
  refine ⟨rfl, ?_, ?_⟩
  · have hlen : name.length = t.length + 3 := by
      simp [String.length, ht]
    have hdata : (newBaseName name).data = '_' :: t := by
      simp [newBaseName, pyDrop, String.toList, ht]
    have : (newBaseName name).length = t.length + 1 := by
      simp [String.length, hdata]
    omega
  · rw [pyStartswith_iff]
    refine ⟨t, ?_⟩
    simp [newBaseName, pyDrop, String.toList, ht]

/-- Witness for C1 at the concrete name of the spec example. -/
theorem newBaseName_spec_witness :
    pyStartswith " - notes.txt" " - " = true ∧
    (newBaseName " - notes.txt" = "_" ++ pyDrop " - notes.txt" 3 ∧
      (newBaseName " - notes.txt").length = (" - notes.txt").length - 2 ∧
      pyStartswith (newBaseName " - notes.txt") "_" = true) :=
  ⟨by decide, newBaseName_spec " - notes.txt" (by decide)⟩

/-! ## C10: responses that trigger the numbered rename -/

/-- C10: at the conflict prompt, exactly the responses r and rename
(compared after lowercasing, so case-insensitively) trigger the numbered
rename; a timeout (none), the empty string, and every other response
take the skip branch. The response is the string returned by
get_input_with_timeout, that is the stdin line already stripped. -/
theorem renameChosen_iff (resp : Option String) :
    (renameChosen resp = true ↔
      ∃ s, resp = some s ∧ (s.toLower = "r" ∨ s.toLower = "rename")) ∧
    renameChosen none = false ∧ renameChosen (some "") = false := by
  refine ⟨?_, rfl, by decide⟩
  cases resp with
  | none => simp [renameChosen]
  | some r =>
    simp only [renameChosen, Bool.and_eq_true, Bool.not_eq_true', beq_eq_false_iff_ne,
      ne_eq, Bool.or_eq_true, beq_iff_eq, Option.some.injEq]
    constructor
    · rintro ⟨-, h⟩
      exact ⟨r, rfl, h⟩
    · rintro ⟨s, rfl, h⟩
      refine ⟨?_, h⟩
      rintro rfl
      have he : "".toLower = "" := by
        rw [show ("".toLower) = String.map Char.toLower "" from rfl, String.map_eq]
        rfl
      rw [he] at h
      rcases h with h | h <;> exact absurd h (by decide)

/-- Witness for C10 at a concrete response. -/
theorem renameChosen_iff_witness :
    (renameChosen (some "R") = true ↔
      ∃ s, some "R" = some s ∧ (s.toLower = "r" ∨ s.toLower = "rename")) ∧
    renameChosen none = false ∧ renameChosen (some "") = false :=
  renameChosen_iff (some "R")

/-! ## C2: collision resolution returns the smallest free counter -/

lemma findLoop_least (fs : Fs) (base_path : FsPath) (original_name : String) :
    ∀ (fuel c : Nat),
      (∃ k, c ≤ k ∧ k < c + fuel ∧
        fsExists fs (base_path ++ [probeName original_name k]) = false) →
      ∃ N, c ≤ N ∧
        findLoop fs base_path original_name c fuel =
          some (base_path ++ [probeName original_name N]) ∧
        fsExists fs (base_path ++ [probeName original_name N]) = false ∧
        ∀ m, c ≤ m → m < N →
          fsExists fs (base_path ++ [probeName original_name m]) = true := by
  intro fuel
  induction fuel with
  | zero =>
    rintro c ⟨k, hk1, hk2, -⟩
    omega
  | succ fuel ih =>
    rintro c ⟨k, hk1, hk2, hk3⟩
    by_cases hc : fsExists fs (base_path ++ [probeName original_name c]) = true
    · have hkc : c ≠ k := by
        rintro rfl
        rw [hc] at hk3
        cases hk3
      obtain ⟨N, hN1, hN2, hN3, hN4⟩ := ih (c + 1) ⟨k, by omega, by omega, hk3⟩
      refine ⟨N, by omega, ?_, hN3, ?_⟩
      · rw [findLoop, if_pos hc]
        exact hN2
      · intro m hm1 hm2
        rcases Nat.eq_or_lt_of_le hm1 with rfl | hm
        · exact hc
        · exact hN4 m hm hm2
    · have hc2 : fsExists fs (base_path ++ [probeName original_name c]) = false := by
        simpa using hc
      refine ⟨c, le_refl c, ?_, hc2, ?_⟩
      · rw [findLoop, if_neg (by simp [hc2])]
      · intro m hm1 hm2
        omega

/-- C2: when some probed counter between 1 and the fuel is free,
find_available_name returns the path whose base name is the stem,
an underscore, the counter N, and the suffix, where N is the smallest
positive counter whose probed path does not currently exist; every
smaller positive counter probes an existing path. -/
theorem find_available_name_least (fs : Fs) (base_path : FsPath)
    (original_name : String) (fuel n : Nat) (h1 : 1 ≤ n) (h2 : n ≤ fuel)
    (h3 : fsExists fs (base_path ++ [probeName original_name n]) = false) :
    ∃ N, 1 ≤ N ∧
      find_available_name fs base_path original_name fuel =
        some (base_path ++ [probeName original_name N]) ∧
      probeName original_name N =
        pyStem original_name ++ "_" ++ toString N ++ pySuffix original_name ∧
      fsExists fs (base_path ++ [probeName original_name N]) = false ∧
      ∀ m, 1 ≤ m → m < N →
        fsExists fs (base_path ++ [probeName original_name m]) = true := by
  obtain ⟨N, hN1, hN2, hN3, hN4⟩ :=
    findLoop_least fs base_path original_name fuel 1 ⟨n, h1, by omega, h3⟩
  exact ⟨N, hN1, hN2, rfl, hN3, hN4⟩

/-- Witness for C2: with _notes.txt and _notes_1.txt existing, probing for
_notes.txt returns _notes_2.txt. -/
theorem find_available_name_least_witness :
    (1 : Nat) ≤ 2 ∧ (2 : Nat) ≤ 3 ∧
    fsExists [["_notes.txt"], ["_notes_1.txt"]]
      (([] : FsPath) ++ [probeName "_notes.txt" 2]) = false ∧
    (∃ N, 1 ≤ N ∧
      find_available_name [["_notes.txt"], ["_notes_1.txt"]] [] "_notes.txt" 3 =
        some (([] : FsPath) ++ [probeName "_notes.txt" N]) ∧
      probeName "_notes.txt" N =
        pyStem "_notes.txt" ++ "_" ++ toString N ++ pySuffix "_notes.txt" ∧
      fsExists [["_notes.txt"], ["_notes_1.txt"]]
        (([] : FsPath) ++ [probeName "_notes.txt" N]) = false ∧
      ∀ m, 1 ≤ m → m < N →
        fsExists [["_notes.txt"], ["_notes_1.txt"]]
          (([] : FsPath) ++ [probeName "_notes.txt" m]) = true) :=
  ⟨by decide, by decide, by decide,
    find_available_name_least [["_notes.txt"], ["_notes_1.txt"]] [] "_notes.txt" 3 2
      (by decide) (by decide) (by decide)⟩

/-! ## C9: a missing root aborts before any work -/

/-- C9: when the root does not resolve to an existing path, the run
reports the path error and returns at once: no candidates are collected,
nothing is renamed or skipped, and no rename is attempted. -/
theorem root_missing_aborts (env : OsEnv) (root_path : String)
    (inputs : List (Option String)) (dry_run : Bool) :
    rename_dash_prefix env root_path none inputs dry_run =
      some { items := [], finalFs := [], renamed_count := 0, skipped_items := [],
             output := ["Error: Path " ++ root_path ++ " does not exist"] } :=
  rfl

/-! ## C4: a dry run mutates nothing and reports every plan -/

lemma processItem_dry (env : OsEnv) (st : RunState) (item : FsPath) :
    processItem env true st item =
      some { st with output := st.output ++ [dryRunLine st.fs item] } := by
  simp [processItem]

lemma processItems_dry (env : OsEnv) (items : List FsPath) : ∀ st : RunState,
    processItems env true st items =
      some { st with output := st.output ++ items.map (dryRunLine st.fs) } := by
  induction items with
  | nil => intro st; simp [processItems]
  | cons item rest ih =>
    intro st
    simp only [processItems, processItem_dry]
    rw [ih]
    simp

/-- C4: a dry run leaves the filesystem exactly as it was, renames and
skips nothing, and prints one report line per planned rename: the
conflict line when the target of the plan already exists, otherwise the
would-rename line, always against the unchanged filesystem. -/
theorem dry_run_no_mutation (env : OsEnv) (root_path : String)
    (entries : List Entry) (inputs : List (Option String)) :
    ∃ r, rename_dash_prefix env root_path (some entries) inputs true = some r ∧
      r.finalFs = fsOfEntries entries ∧
      r.renamed_count = 0 ∧ r.skipped_items = [] ∧
      (collectItems entries ≠ [] →
        r.items = collectItems entries ∧
        r.output =
          ("Found " ++ toString (collectItems entries).length ++ " item(s) to rename:")
            :: ((collectItems entries).map (dryRunLine (fsOfEntries entries))
              ++ ["Dry run complete. Run with --execute to actually rename files."])) ∧
      (∀ item, fsExists (fsOfEntries entries) (targetPath item) = true →
        dryRunLine (fsOfEntries entries) item =
          "[DRY RUN] Conflict: " ++ pathStr item ++ " -> " ++ pathStr (targetPath item)
            ++ " (target exists)") := by
  by_cases hempty : collectItems entries = []
  · refine ⟨({ items := [], finalFs := fsOfEntries entries, renamed_count := 0,
               skipped_items := [],
               output := ["No files or directories found starting with - "] } : RunResult),
      ?_, rfl, rfl, rfl, fun h => absurd hempty h, fun item h => ?_⟩
    · simp [ rename_dash_prefix, hempty]
    · rw [dryRunLine, if_pos h]
  · refine ⟨({ items := collectItems entries, finalFs := fsOfEntries entries,
               renamed_count := 0, skipped_items := [],
               output := (["Found " ++ toString (collectItems entries).length
                     ++ " item(s) to rename:"]
                   ++ (collectItems entries).map (dryRunLine (fsOfEntries entries)))
                 ++ ["Dry run complete. Run with --execute to actually rename files."] }
        : RunResult),
      ?_, rfl, rfl, rfl, fun _ => ⟨rfl, by simp⟩, fun item h => ?_⟩
    · simp [ rename_dash_prefix, hempty, processItems_dry]
    · rw [dryRunLine, if_pos h]

/-- Witness for C4 at a concrete tree holding one candidate file with a
conflicting target and one without. -/
theorem dry_run_no_mutation_witness :
    ∃ r, rename_dash_prefix { renameErr := fun _ _ _ => none } "root"
        (some [Entry.file " - a.txt", Entry.file "_a.txt", Entry.file " - b.txt"]) [] true
          = some r ∧
      r.finalFs = fsOfEntries [Entry.file " - a.txt", Entry.file "_a.txt", Entry.file " - b.txt"] ∧
      r.renamed_count = 0 ∧ r.skipped_items = [] ∧
      (collectItems [Entry.file " - a.txt", Entry.file "_a.txt", Entry.file " - b.txt"] ≠ [] →
        r.items = collectItems [Entry.file " - a.txt", Entry.file "_a.txt", Entry.file " - b.txt"] ∧
        r.output =
          ("Found " ++ toString (collectItems [Entry.file " - a.txt", Entry.file "_a.txt",
              Entry.file " - b.txt"]).length ++ " item(s) to rename:")
            :: ((collectItems [Entry.file " - a.txt", Entry.file "_a.txt", Entry.file " - b.txt"]).map
                (dryRunLine (fsOfEntries [Entry.file " - a.txt", Entry.file "_a.txt",
                  Entry.file " - b.txt"]))
              ++ ["Dry run complete. Run with --execute to actually rename files."])) ∧
      (∀ item, fsExists (fsOfEntries [Entry.file " - a.txt", Entry.file "_a.txt",
          Entry.file " - b.txt"]) (targetPath item) = true →
        dryRunLine (fsOfEntries [Entry.file " - a.txt", Entry.file "_a.txt",
            Entry.file " - b.txt"]) item =
          "[DRY RUN] Conflict: " ++ pathStr item ++ " -> " ++ pathStr (targetPath item)
            ++ " (target exists)") :=
  dry_run_no_mutation { renameErr := fun _ _ _ => none } "root"
    [Entry.file " - a.txt", Entry.file "_a.txt", Entry.file " - b.txt"] []

/-! ## C5, C6, C7: the execute loop -/

lemma targetPath_def (item : FsPath) :
    targetPath item = pathParent item ++ [newBaseName (pathName item)] := rfl

lemma dropLast_append_getLastD : ∀ (l : FsPath), l ≠ [] → l.dropLast ++ [l.getLastD ""] = l := by
  intro l
  induction l with
  | nil => intro h; exact absurd rfl h
  | cons a rest ih =>
    intro _
    cases rest with
    | nil => rfl
    | cons b r =>
      have h2 := ih (by simp)
      simp only [List.dropLast_cons₂, List.getLastD_cons, List.cons_append] at h2 ⊢
      rw [h2]

lemma parent_append_name (item : FsPath) (h : item ≠ []) :
    pathParent item ++ [pathName item] = item :=
  dropLast_append_getLastD item h

lemma candidate_ne_nil (item : FsPath) (h : pyStartswith (pathName item) " - " = true) :
    item ≠ [] := by
  rintro rfl
  revert h
  decide

lemma newBaseName_ne (name : String) (h : pyStartswith name " - " = true) :
    newBaseName name ≠ name := by
  obtain ⟨t, ht⟩ := startswith_dash name h
  intro he
  have hd := congrArg String.data he
  have h1 : (newBaseName name).data = '_' :: (name.data.drop 3) := by
    simp [newBaseName, pyDrop, String.toList]
  rw [h1, ht] at hd
  simp only [List.drop_succ_cons, List.drop_zero] at hd
  injection hd with h2 h3
  exact absurd h2 (by decide)

lemma fsRename_src_gone (fs : Fs) (src dst : FsPath) (hlen : dst.length = src.length)
    (hne : dst ≠ src) : fsExists (fsRename fs src dst) src = false := by
  simp only [fsExists, fsRename, decide_eq_false_iff_not, List.mem_map]
  rintro ⟨q, hq, hmap⟩
  by_cases h : q.take src.length = src
  · rw [if_pos h] at hmap
    have hql : src.length ≤ q.length := by
      have h3 := congrArg List.length h
      simp [List.length_take] at h3
      omega
    have hlen2 : dst.length + (q.length - src.length) = src.length := by
      have h3 := congrArg List.length hmap
      simpa using h3
    have hq_eq : q.length = src.length := by omega
    have hq_src : q = src := by
      have h4 : q.take src.length = q := List.take_of_length_le (le_of_eq hq_eq)
      exact h4.symm.trans h
    subst hq_src
    rw [hq_eq, List.drop_length, List.append_nil] at hmap
    exact hne hmap
  · rw [if_neg h] at hmap
    subst hmap
    exact h (List.take_length q)

/-- C5: in execute mode, a candidate whose target does not currently
exist is renamed to that target with no prompt (the operator input is
left untouched), the rename is counted, and afterwards the candidate no
longer exists under its original path. The rename itself succeeding (no
OSError from the operating system) is assumed through the oracle. -/
theorem execute_renames_when_free (env : OsEnv) (st : RunState) (item : FsPath)
    (hc : pyStartswith (pathName item) " - " = true)
    (hne : fsExists st.fs (targetPath item) = false)
    (herr : env.renameErr st.fs item (targetPath item) = none) :
    processItem env false st item =
      some { st with
        fs := fsRename st.fs item (targetPath item),
        output := st.output ++
          ["Renamed: " ++ pathName item ++ " -> " ++ newBaseName (pathName item)],
        renamed_count := st.renamed_count + 1 } ∧
    fsExists (fsRename st.fs item (targetPath item)) item = false := by
  have hnil := candidate_ne_nil item hc
  have hpn := parent_append_name item hnil
  constructor
  · rw [targetPath_def] at hne herr
    simp only [processItem]
    simp [hne, herr, targetPath_def]
  · apply fsRename_src_gone
    · rw [targetPath_def]
      conv_rhs => rw [← hpn]
      simp
    · rw [targetPath_def]
      intro he
      have h2 : pathParent item ++ [newBaseName (pathName item)] =
          pathParent item ++ [pathName item] := he.trans hpn.symm
      have h3 := List.append_cancel_left h2
      simp only [List.cons.injEq, and_true] at h3
      exact newBaseName_ne (pathName item) hc h3

/-- Witness for C5 at a one-file tree. -/
theorem execute_renames_when_free_witness :
    pyStartswith (pathName [" - a.txt"]) " - " = true ∧
    fsExists [[" - a.txt"]] (targetPath [" - a.txt"]) = false ∧
    fsExists (fsRename [[" - a.txt"]] [" - a.txt"] (targetPath [" - a.txt"]))
      [" - a.txt"] = false :=
  ⟨by decide, by decide,
    (execute_renames_when_free { renameErr := fun _ _ _ => none }
      { fs := [[" - a.txt"]], inputs := [], renamed_count := 0, skipped_items := [],
        output := [] }
      [" - a.txt"] (by decide) (by decide) rfl).2⟩

/-- C6: in execute mode, when the target of a candidate exists and the
operator chooses skip, answers anything that is not r or rename, or does
not answer within the wait (the response is none), the candidate is left
untouched (the filesystem field is unchanged, so the candidate is still
at its original path), it is recorded in skipped_items, nothing is
counted as renamed, and the loop goes on with the remaining candidates
from that state. -/
theorem conflict_skip_keeps_item (env : OsEnv) (st : RunState) (item : FsPath)
    (rest : List FsPath)
    (hex : fsExists st.fs (targetPath item) = true)
    (hresp : renameChosen (get_input_with_timeout (st.inputs.headD none)) = false) :
    processItem env false st item =
      some { st with
        inputs := st.inputs.tail,
        output := st.output ++
          ["Conflict: Target already exists: " ++ pathStr (targetPath item),
            "Skipped: " ++ pathName item],
        skipped_items := st.skipped_items ++ [pathStr item] } ∧
    processItems env false st (item :: rest) =
      processItems env false
        { st with
          inputs := st.inputs.tail,
          output := st.output ++
            ["Conflict: Target already exists: " ++ pathStr (targetPath item),
              "Skipped: " ++ pathName item],
          skipped_items := st.skipped_items ++ [pathStr item] } rest := by
  have h1 : processItem env false st item =
      some { st with
        inputs := st.inputs.tail,
        output := st.output ++
          ["Conflict: Target already exists: " ++ pathStr (targetPath item),
            "Skipped: " ++ pathName item],
        skipped_items := st.skipped_items ++ [pathStr item] } := by
    rw [targetPath_def] at hex
    simp only [List.headD_eq_head?_getD] at hresp
    simp only [processItem]
    simp [hex, hresp, targetPath_def]
  refine ⟨h1, ?_⟩
  simp only [processItems]
  rw [h1]

/-- Witness for C6: a timeout (no response arrives) at a conflict leads
to a recorded skip that leaves the state of the filesystem unchanged. -/
theorem conflict_skip_keeps_item_witness :
    fsExists [[" - a.txt"], ["_a.txt"]] (targetPath [" - a.txt"]) = true ∧
    (processItem { renameErr := fun _ _ _ => none } false
        { fs := [[" - a.txt"], ["_a.txt"]], inputs := [], renamed_count := 0,
          skipped_items := [], output := [] } [" - a.txt"] =
      some { fs := [[" - a.txt"], ["_a.txt"]], inputs := [], renamed_count := 0,
             skipped_items := [] ++ [pathStr [" - a.txt"]],
             output := [] ++
               ["Conflict: Target already exists: " ++ pathStr (targetPath [" - a.txt"]),
                 "Skipped: " ++ pathName [" - a.txt"]] } ∧
      processItems { renameErr := fun _ _ _ => none } false
          { fs := [[" - a.txt"], ["_a.txt"]], inputs := [], renamed_count := 0,
            skipped_items := [], output := [] } ([" - a.txt"] :: []) =
        processItems { renameErr := fun _ _ _ => none } false
          { fs := [[" - a.txt"], ["_a.txt"]], inputs := [], renamed_count := 0,
            skipped_items := [] ++ [pathStr [" - a.txt"]],
            output := [] ++
              ["Conflict: Target already exists: " ++ pathStr (targetPath [" - a.txt"]),
                "Skipped: " ++ pathName [" - a.txt"]] } []) :=
  ⟨by decide,
    conflict_skip_keeps_item { renameErr := fun _ _ _ => none }
      { fs := [[" - a.txt"], ["_a.txt"]], inputs := [], renamed_count := 0,
        skipped_items := [], output := [] } [" - a.txt"] [] (by decide) rfl⟩

/-- C7: in execute mode, an error reported by the operating system for
the rename of one candidate, in either the conflict-free branch or the
numbered-rename branch, is caught for that item alone: the loop state
keeps its filesystem, the item is appended to skipped_items, the logged
line names the offending path and the underlying error text, and the
loop goes on with the remaining candidates, so one failure never aborts
the run. -/
theorem rename_error_skips (env : OsEnv) (st : RunState) (item : FsPath)
    (rest : List FsPath) (e : String) :
    (fsExists st.fs (targetPath item) = false →
      env.renameErr st.fs item (targetPath item) = some e →
      processItem env false st item =
        some { st with
          output := st.output ++ [renameErrorLine item e],
          skipped_items := st.skipped_items ++ [pathStr item] } ∧
      processItems env false st (item :: rest) =
        processItems env false
          { st with
            output := st.output ++ [renameErrorLine item e],
            skipped_items := st.skipped_items ++ [pathStr item] } rest) ∧
    (∀ np, fsExists st.fs (targetPath item) = true →
      renameChosen (get_input_with_timeout (st.inputs.headD none)) = true →
      find_available_name st.fs (pathParent item) (newBaseName (pathName item))
        (st.fs.length + 1) = some np →
      env.renameErr st.fs item np = some e →
      processItem env false st item =
        some { st with
          inputs := st.inputs.tail,
          output := st.output ++
            ["Conflict: Target already exists: " ++ pathStr (targetPath item),
              renameErrorLine item e],
          skipped_items := st.skipped_items ++ [pathStr item] } ∧
      processItems env false st (item :: rest) =
        processItems env false
          { st with
            inputs := st.inputs.tail,
            output := st.output ++
              ["Conflict: Target already exists: " ++ pathStr (targetPath item),
                renameErrorLine item e],
            skipped_items := st.skipped_items ++ [pathStr item] } rest) ∧
    renameErrorLine item e = "Error renaming " ++ pathStr item ++ ": " ++ e := by
  refine ⟨fun hne herr => ?_, fun np hex hresp hfind herr => ?_, rfl⟩
  · have h1 : processItem env false st item =
        some { st with
          output := st.output ++ [renameErrorLine item e],
          skipped_items := st.skipped_items ++ [pathStr item] } := by
      rw [targetPath_def] at hne herr
      simp only [processItem]
      simp [hne, herr]
    refine ⟨h1, ?_⟩
    simp only [processItems]
    rw [h1]
  · have h1 : processItem env false st item =
        some { st with
          inputs := st.inputs.tail,
          output := st.output ++
            ["Conflict: Target already exists: " ++ pathStr (targetPath item),
              renameErrorLine item e],
          skipped_items := st.skipped_items ++ [pathStr item] } := by
      rw [targetPath_def] at hex
      simp only [List.headD_eq_head?_getD] at hresp
      simp only [processItem]
      simp [hex, hresp, hfind, herr, targetPath_def]
    refine ⟨h1, ?_⟩
    simp only [processItems]
    rw [h1]

/-- Witness for C7 at a one-file tree with an operating system that
refuses the rename: the item is skipped with the error logged and the
loop moves on. -/
theorem rename_error_skips_witness :
    processItem { renameErr := fun _ _ _ => some "Permission denied" } false
        { fs := [[" - a.txt"]], inputs := [], renamed_count := 0, skipped_items := [],
          output := [] } [" - a.txt"] =
      some { fs := [[" - a.txt"]], inputs := [], renamed_count := 0,
             skipped_items := [] ++ [pathStr [" - a.txt"]],
             output := [] ++ [renameErrorLine [" - a.txt"] "Permission denied"] } ∧
    processItems { renameErr := fun _ _ _ => some "Permission denied" } false
        { fs := [[" - a.txt"]], inputs := [], renamed_count := 0, skipped_items := [],
          output := [] } ([" - a.txt"] :: [[" - b.txt"]]) =
      processItems { renameErr := fun _ _ _ => some "Permission denied" } false
        { fs := [[" - a.txt"]], inputs := [], renamed_count := 0,
          skipped_items := [] ++ [pathStr [" - a.txt"]],
          output := [] ++ [renameErrorLine [" - a.txt"] "Permission denied"] }
        [[" - b.txt"]] :=
  (rename_error_skips { renameErr := fun _ _ _ => some "Permission denied" }
    { fs := [[" - a.txt"]], inputs := [], renamed_count := 0, skipped_items := [],
      output := [] } [" - a.txt"] [[" - b.txt"]] "Permission denied").1 (by decide) rfl

/-! ## C8: discovery is sound and complete -/

lemma collectItems_eq (root : List Entry) :
    collectItems root = walkFlatFull [] root := by
  simp [collectItems, os_walk_bottomup, walkFlatFull]

lemma walkChildren_nil (p : FsPath) : walkChildren p [] = [] := by
  rw [walkChildren]

lemma walkChildren_file (p : FsPath) (n : String) (rest : List Entry) :
    walkChildren p (Entry.file n :: rest) = walkChildren p rest := by
  rw [walkChildren]

lemma walkChildren_dir (p : FsPath) (n : String) (cs rest : List Entry) :
    walkChildren p (Entry.dir n cs :: rest) =
      (walkChildren (p ++ [n]) cs ++ [(p ++ [n], dirNames cs, fileNames cs)])
        ++ walkChildren p rest := by
  rw [walkChildren]

lemma dirNames_file (n : String) (rest : List Entry) :
    dirNames (Entry.file n :: rest) = dirNames rest := rfl

lemma dirNames_dir (n : String) (cs rest : List Entry) :
    dirNames (Entry.dir n cs :: rest) = n :: dirNames rest := rfl

lemma fileNames_file (n : String) (rest : List Entry) :
    fileNames (Entry.file n :: rest) = n :: fileNames rest := rfl

lemma fileNames_dir (n : String) (cs rest : List Entry) :
    fileNames (Entry.dir n cs :: rest) = fileNames rest := rfl

lemma hasPath_nil (q : FsPath) : HasPath [] q ↔ False := by
  constructor
  · intro h
    cases h with
    | here hm => simp at hm
    | nested hm _ => simp at hm
  · intro h
    exact absurd h (by simp)

lemma hasPath_ne_nil {cs : List Entry} {q : FsPath} (h : HasPath cs q) : q ≠ [] := by
  cases h <;> simp

lemma hasPath_cons (e : Entry) (rest : List Entry) (q : FsPath) :
    HasPath (e :: rest) q ↔
      (q = [entryName e] ∨
        (∃ n cs', e = Entry.dir n cs' ∧ ∃ q', q = n :: q' ∧ HasPath cs' q') ∨
        HasPath rest q) := by
  constructor
  · intro h
    cases h with
    | here hm =>
      rcases List.mem_cons.1 hm with rfl | hm'
      · exact Or.inl rfl
      · exact Or.inr (Or.inr (HasPath.here hm'))
    | nested hm hq =>
      rcases List.mem_cons.1 hm with he | hm'
      · exact Or.inr (Or.inl ⟨_, _, he.symm, _, rfl, hq⟩)
      · exact Or.inr (Or.inr (HasPath.nested hm' hq))
  · rintro (rfl | ⟨n, cs', rfl, q', rfl, hq⟩ | h)
    · exact HasPath.here (List.mem_cons_self e rest)
    · exact HasPath.nested (List.mem_cons_self _ _) hq
    · cases h with
      | here hm => exact HasPath.here (List.mem_cons_of_mem e hm)
      | nested hm hq => exact HasPath.nested (List.mem_cons_of_mem e hm) hq

lemma mem_tripleItems (p : FsPath) (dns fns : List String) (x : FsPath) :
    x ∈ tripleItems (p, dns, fns) ↔
      ∃ n, x = p ++ [n] ∧ pyStartswith n " - " = true ∧ (n ∈ fns ∨ n ∈ dns) := by
  simp only [tripleItems, List.mem_append, List.mem_map, List.mem_filter]
  constructor
  · rintro (⟨n, ⟨hn, hc⟩, rfl⟩ | ⟨n, ⟨hn, hc⟩, rfl⟩)
    · exact ⟨n, rfl, hc, Or.inl hn⟩
    · exact ⟨n, rfl, hc, Or.inr hn⟩
  · rintro ⟨n, rfl, hc, hn | hn⟩
    · exact Or.inl ⟨n, ⟨hn, hc⟩, rfl⟩
    · exact Or.inr ⟨n, ⟨hn, hc⟩, rfl⟩

lemma getLastD_cons_of_ne_nil {q : FsPath} (n : String) (h : q ≠ []) :
    (n :: q).getLastD "" = q.getLastD "" := by
  cases q with
  | nil => exact absurd rfl h
  | cons a r => rfl

lemma mem_walkFlatFull : ∀ (cs : List Entry) (p x : FsPath),
    x ∈ walkFlatFull p cs ↔
      ∃ q, x = p ++ q ∧ HasPath cs q ∧ pyStartswith (q.getLastD "") " - " = true
  | [], p, x => by
    rw [walkFlatFull, walkChildren_nil]
    simp only [List.flatMap_nil, List.nil_append, mem_tripleItems]
    constructor
    · rintro ⟨n, rfl, hc, hn | hn⟩ <;> simp [dirNames, fileNames] at hn
    · rintro ⟨q, rfl, hq, hc⟩
      exact absurd hq (by rw [hasPath_nil]; exact id)
  | .file n :: rest, p, x => by
    have ih := mem_walkFlatFull rest p x
    rw [walkFlatFull, walkChildren_file, dirNames_file, fileNames_file]
    rw [walkFlatFull] at ih
    simp only [List.mem_append] at ih ⊢
    rw [mem_tripleItems] at ih ⊢
    constructor
    · rintro (hw | ⟨m, rfl, hc, hm | hm⟩)
      · obtain ⟨q, hq1, hq2, hq3⟩ := ih.1 (Or.inl hw)
        exact ⟨q, hq1, (hasPath_cons _ _ q).2 (Or.inr (Or.inr hq2)), hq3⟩
      · rcases List.mem_cons.1 hm with rfl | hm'
        · exact ⟨[m], rfl, (hasPath_cons _ _ _).2 (Or.inl (by simp [entryName])),
            by simpa using hc⟩
        · obtain ⟨q, hq1, hq2, hq3⟩ := ih.1 (Or.inr ⟨m, rfl, hc, Or.inl hm'⟩)
          exact ⟨q, hq1, (hasPath_cons _ _ q).2 (Or.inr (Or.inr hq2)), hq3⟩
      · obtain ⟨q, hq1, hq2, hq3⟩ := ih.1 (Or.inr ⟨m, rfl, hc, Or.inr hm⟩)
        exact ⟨q, hq1, (hasPath_cons _ _ q).2 (Or.inr (Or.inr hq2)), hq3⟩
    · rintro ⟨q, rfl, hq, hc⟩
      rcases (hasPath_cons _ _ q).1 hq with rfl | ⟨n0, cs0, he, -⟩ | hq'
      · refine Or.inr ⟨entryName (Entry.file n), rfl, by simpa using hc, Or.inl ?_⟩
        simp [entryName]
      · exact absurd he (by simp)
      · rcases ih.2 ⟨q, rfl, hq', hc⟩ with hw | ⟨m, hm1, hm2, hm3⟩
        · exact Or.inl hw
        · refine Or.inr ⟨m, hm1, hm2, ?_⟩
          rcases hm3 with h | h
          · exact Or.inl (List.mem_cons_of_mem n h)
          · exact Or.inr h
  | .dir n cs' :: rest, p, x => by
    have ih1 := mem_walkFlatFull cs' (p ++ [n]) x
    have ih2 := mem_walkFlatFull rest p x
    rw [walkFlatFull, walkChildren_dir, dirNames_dir, fileNames_dir]
    rw [walkFlatFull] at ih1 ih2
    simp only [List.flatMap_append, List.flatMap_cons, List.flatMap_nil,
      List.append_nil, List.mem_append] at ih1 ih2 ⊢
    constructor
    · rintro (((ha | hb) | hc) | hd)
      · obtain ⟨q, hq1, hq2, hq3⟩ := ih1.1 (Or.inl ha)
        refine ⟨n :: q, by simp [hq1], ?_, ?_⟩
        · exact (hasPath_cons _ _ _).2 (Or.inr (Or.inl ⟨n, cs', rfl, q, rfl, hq2⟩))
        · rwa [getLastD_cons_of_ne_nil n (hasPath_ne_nil hq2)]
      · obtain ⟨q, hq1, hq2, hq3⟩ := ih1.1 (Or.inr hb)
        refine ⟨n :: q, by simp [hq1], ?_, ?_⟩
        · exact (hasPath_cons _ _ _).2 (Or.inr (Or.inl ⟨n, cs', rfl, q, rfl, hq2⟩))
        · rwa [getLastD_cons_of_ne_nil n (hasPath_ne_nil hq2)]
      · obtain ⟨q, hq1, hq2, hq3⟩ := ih2.1 (Or.inl hc)
        exact ⟨q, hq1, (hasPath_cons _ _ q).2 (Or.inr (Or.inr hq2)), hq3⟩
      · obtain ⟨m, rfl, hcand, hmem⟩ :=
          (mem_tripleItems p (n :: dirNames rest) (fileNames rest) x).1 hd
        rcases hmem with hf | hnd
        · obtain ⟨q, hq1, hq2, hq3⟩ := ih2.1
            (Or.inr ((mem_tripleItems p (dirNames rest) (fileNames rest) _).2
              ⟨m, rfl, hcand, Or.inl hf⟩))
          exact ⟨q, hq1, (hasPath_cons _ _ q).2 (Or.inr (Or.inr hq2)), hq3⟩
        · rcases List.mem_cons.1 hnd with rfl | hm'
          · exact ⟨[m], rfl, (hasPath_cons _ _ _).2 (Or.inl (by simp [entryName])),
              by simpa using hcand⟩
          · obtain ⟨q, hq1, hq2, hq3⟩ := ih2.1
              (Or.inr ((mem_tripleItems p (dirNames rest) (fileNames rest) _).2
                ⟨m, rfl, hcand, Or.inr hm'⟩))
            exact ⟨q, hq1, (hasPath_cons _ _ q).2 (Or.inr (Or.inr hq2)), hq3⟩
    · rintro ⟨q, rfl, hq, hc⟩
      rcases (hasPath_cons _ _ q).1 hq with rfl | ⟨n0, cs0, he, q', rfl, hq'⟩ | hq'
      · refine Or.inr ((mem_tripleItems p (n :: dirNames rest) (fileNames rest) _).2
          ⟨entryName (Entry.dir n cs'), rfl, by simpa using hc, Or.inr ?_⟩)
        simp [entryName]
      · have hn0 : n0 = n := by injection he with h1 h2; exact h1.symm
        have hcs0 : cs0 = cs' := by injection he with h1 h2; exact h2.symm
        subst hn0; subst hcs0
        rw [getLastD_cons_of_ne_nil n0 (hasPath_ne_nil hq')] at hc
        have hAB := ih1.2 ⟨q', by simp, hq', hc⟩
        exact Or.inl (Or.inl hAB)
      · rcases ih2.2 ⟨q, rfl, hq', hc⟩ with hr | ht
        · exact Or.inl (Or.inr hr)
        · obtain ⟨m, hm1, hm2, hm3⟩ :=
            (mem_tripleItems p (dirNames rest) (fileNames rest) _).1 ht
          refine Or.inr ((mem_tripleItems p (n :: dirNames rest) (fileNames rest) _).2
            ⟨m, hm1, hm2, ?_⟩)
          rcases hm3 with h | h
          · exact Or.inl h
          · exact Or.inr (List.mem_cons_of_mem n h)
  termination_by cs => sizeOf cs
  decreasing_by all_goals (simp; try omega)

/-- C8: discovery is sound and complete: a path is in the collected
items_to_rename exactly when it addresses a file or directory somewhere
under the root whose base name starts with space-hyphen-space. -/
theorem discovery_sound_complete (root : List Entry) (x : FsPath) :
    x ∈ collectItems root ↔
      HasPath root x ∧ pyStartswith (x.getLastD "") " - " = true := by
  rw [collectItems_eq, mem_walkFlatFull]
  constructor
  · rintro ⟨q, rfl, hq, hc⟩
    exact ⟨hq, hc⟩
  · rintro ⟨hq, hc⟩
    exact ⟨x, (List.nil_append x).symm, hq, hc⟩

/-- Witness for C8 at a concrete nested tree and item. -/
theorem discovery_sound_complete_witness :
    [" - d", " - c"] ∈ collectItems [Entry.dir " - d" [Entry.file " - c"]] ↔
      HasPath [Entry.dir " - d" [Entry.file " - c"]] [" - d", " - c"] ∧
      pyStartswith ([" - d", " - c"].getLastD "") " - " = true :=
  discovery_sound_complete [Entry.dir " - d" [Entry.file " - c"]] [" - d", " - c"]

/-! ## C3: nested candidates come before their enclosing directories -/

lemma strictExt_length {a b : FsPath} (h : StrictExt a b) : a.length < b.length := by
  obtain ⟨t, ht, rfl⟩ := h
  have h2 : 0 < t.length := List.length_pos.2 ht
  simp [List.length_append]
  omega

lemma not_strictExt_of_le {a b : FsPath} (h : b.length ≤ a.length) : ¬ StrictExt a b :=
  fun hs => absurd (strictExt_length hs) (by omega)

lemma mem_tripleItems_len {p : FsPath} {dns fns : List String} {x : FsPath}
    (h : x ∈ tripleItems (p, dns, fns)) : x.length = p.length + 1 := by
  obtain ⟨m, rfl, -, -⟩ := (mem_tripleItems p dns fns x).1 h
  simp

lemma walk_item_shape : ∀ (cs : List Entry) (p x : FsPath),
    x ∈ (walkChildren p cs).flatMap tripleItems →
    ∃ m r, m ∈ dirNames cs ∧ r ≠ [] ∧ x = p ++ [m] ++ r
  | [], p, x => by
    rw [walkChildren_nil]
    simp
  | .file n :: rest, p, x => by
    rw [walkChildren_file]
    intro h
    obtain ⟨m, r, hm, hr, hx⟩ := walk_item_shape rest p x h
    exact ⟨m, r, hm, hr, hx⟩
  | .dir n cs0 :: rest, p, x => by
    rw [walkChildren_dir]
    simp only [List.flatMap_append, List.flatMap_cons, List.flatMap_nil,
      List.append_nil, List.mem_append]
    rintro ((ha | hb) | hc)
    · obtain ⟨m, r, hm, hr, hx⟩ := walk_item_shape cs0 (p ++ [n]) x ha
      refine ⟨n, [m] ++ r, by simp [dirNames_dir], by simp, ?_⟩
      rw [hx]
      simp
    · obtain ⟨s, hs, -, -⟩ := (mem_tripleItems _ _ _ _).1 hb
      exact ⟨n, [s], by simp [dirNames_dir], by simp, hs⟩
    · obtain ⟨m, r, hm, hr, hx⟩ := walk_item_shape rest p x hc
      exact ⟨m, r, by simp [dirNames_dir, hm], hr, hx⟩
  termination_by cs => sizeOf cs
  decreasing_by all_goals (simp; try omega)

lemma walk_item_len {cs : List Entry} {p x : FsPath}
    (h : x ∈ (walkChildren p cs).flatMap tripleItems) : p.length + 2 ≤ x.length := by
  obtain ⟨m, r, -, hr, rfl⟩ := walk_item_shape cs p x h
  have h2 : 0 < r.length := List.length_pos.2 hr
  simp [List.length_append]
  omega

lemma walkFlatFull_shape {cs : List Entry} {p x : FsPath} (h : x ∈ walkFlatFull p cs) :
    ∃ r, r ≠ [] ∧ x = p ++ r := by
  rcases List.mem_append.1 h with hw | ht
  · obtain ⟨m, r, -, -, rfl⟩ := walk_item_shape cs p x hw
    exact ⟨[m] ++ r, by simp, by simp⟩
  · obtain ⟨m, rfl, -, -⟩ := (mem_tripleItems _ _ _ _).1 ht
    exact ⟨[m], by simp, rfl⟩

lemma nodupBool_cons (n : String) (l : List String) :
    nodupBool (n :: l) = true ↔ (n ∉ l ∧ nodupBool l = true) := by
  rw [nodupBool]
  simp

lemma wf_cons (e : Entry) (rest : List Entry) (h : wfEntries (e :: rest) = true) :
    wfEntries rest = true ∧ entryName e ∉ rest.map entryName := by
  rw [wfEntries, Bool.and_eq_true] at h
  obtain ⟨h1, h2⟩ := h
  rw [List.map_cons, nodupBool_cons] at h1
  refine ⟨?_, h1.1⟩
  rw [wfEntries, Bool.and_eq_true]
  refine ⟨h1.2, ?_⟩
  cases e with
  | file n =>
    rw [wfAux] at h2
    exact h2
  | dir n cs =>
    rw [wfAux, Bool.and_eq_true] at h2
    exact h2.2

lemma wf_dir_children (n : String) (cs' rest : List Entry)
    (h : wfEntries (.dir n cs' :: rest) = true) : wfEntries cs' = true := by
  rw [wfEntries, Bool.and_eq_true] at h
  have h2 := h.2
  rw [wfAux, Bool.and_eq_true] at h2
  have h3 := h2.1
  rw [Bool.and_eq_true] at h3
  rw [wfEntries, Bool.and_eq_true]
  exact h3

lemma dirNames_sub_names {m : String} {cs : List Entry} (h : m ∈ dirNames cs) :
    m ∈ cs.map entryName := by
  rw [dirNames, List.mem_filterMap] at h
  obtain ⟨e, he, hm⟩ := h
  cases e with
  | file n => simp at hm
  | dir n cs0 =>
    simp only [Option.some.injEq] at hm
    exact List.mem_map.2 ⟨Entry.dir n cs0, he, by simp [entryName, hm]⟩

lemma tripleItems_eq (p : FsPath) (dns fns : List String) :
    tripleItems (p, dns, fns) =
      ((fns.filter fun m => pyStartswith m " - ").map fun m => p ++ [m])
        ++ ((dns.filter fun m => pyStartswith m " - ").map fun m => p ++ [m]) := rfl

lemma tripleItems_cons_file (p : FsPath) (dns fns : List String) (n : String) :
    tripleItems (p, dns, n :: fns) =
      (if pyStartswith n " - " = true then [p ++ [n]] else [])
        ++ tripleItems (p, dns, fns) := by
  rw [tripleItems_eq, tripleItems_eq, List.filter_cons]
  by_cases h : pyStartswith n " - " = true <;> simp [h]

lemma tripleItems_cons_dir (p : FsPath) (dns fns : List String) (n : String) :
    tripleItems (p, n :: dns, fns) =
      ((fns.filter fun m => pyStartswith m " - ").map fun m => p ++ [m])
        ++ ((if pyStartswith n " - " = true then [p ++ [n]] else [])
          ++ ((dns.filter fun m => pyStartswith m " - ").map fun m => p ++ [m])) := by
  rw [tripleItems_eq, List.filter_cons]
  by_cases h : pyStartswith n " - " = true <;> simp [h]

lemma mem_name_map {p : FsPath} {l : List String} {b : FsPath}
    (h : b ∈ (l.filter fun m => pyStartswith m " - ").map fun m => p ++ [m]) :
    ∃ m, b = p ++ [m] := by
  obtain ⟨m, -, rfl⟩ := List.mem_map.1 h
  exact ⟨m, rfl⟩

lemma mem_opt_singleton {p : FsPath} {n : String} {c : Bool} {b : FsPath}
    (h : b ∈ (if c = true then [p ++ [n]] else [])) : b = p ++ [n] := by
  by_cases hc : c = true <;> simp [hc] at h
  exact h

lemma pairwise_walkFlatFull : ∀ (cs : List Entry) (p : FsPath),
    wfEntries cs = true →
    (walkFlatFull p cs).Pairwise (fun a b => ¬ StrictExt a b)
  | [], p, _ => by
    rw [walkFlatFull, walkChildren_nil]
    simp [tripleItems_eq, dirNames, fileNames]
  | .file n :: rest, p, h => by
    obtain ⟨hrest, -⟩ := wf_cons _ _ h
    have ih := pairwise_walkFlatFull rest p hrest
    rw [walkFlatFull, walkChildren_file, dirNames_file, fileNames_file,
      tripleItems_cons_file]
    rw [walkFlatFull] at ih
    obtain ⟨pwC, pwT, crossCT⟩ := List.pairwise_append.1 ih
    refine List.pairwise_append.2 ⟨pwC, List.pairwise_append.2 ⟨?_, pwT, ?_⟩, ?_⟩
    · by_cases hc : pyStartswith n " - " = true <;> simp [hc]
    · intro a ha b hb
      have ha3 : a.length = p.length + 1 := by rw [mem_opt_singleton ha]; simp
      have hb3 := mem_tripleItems_len hb
      exact not_strictExt_of_le (by omega)
    · intro a ha b hb
      have ha2 := walk_item_len ha
      rcases List.mem_append.1 hb with hbN | hbT
      · have hb3 : b.length = p.length + 1 := by rw [mem_opt_singleton hbN]; simp
        exact not_strictExt_of_le (by omega)
      · have hb3 := mem_tripleItems_len hbT
        exact not_strictExt_of_le (by omega)
  | .dir n cs' :: rest, p, h => by
    obtain ⟨hrest, hnot⟩ := wf_cons _ _ h
    have hcs' := wf_dir_children n cs' rest h
    have ih1 := pairwise_walkFlatFull cs' (p ++ [n]) hcs'
    have ih2 := pairwise_walkFlatFull rest p hrest
    rw [walkFlatFull, walkChildren_dir, dirNames_dir, fileNames_dir,
      tripleItems_cons_dir]
    rw [walkFlatFull] at ih1 ih2
    rw [tripleItems_eq] at ih2
    simp only [List.flatMap_append, List.flatMap_cons, List.flatMap_nil,
      List.append_nil]
    obtain ⟨pwFlatRest, pwFD, crossRest_FD⟩ := List.pairwise_append.1 ih2
    obtain ⟨pwF, pwD, crossF_D⟩ := List.pairwise_append.1 pwFD
    have hlenW : ∀ a, a ∈ walkFlatFull (p ++ [n]) cs' → p.length + 2 ≤ a.length := by
      intro a ha
      obtain ⟨r, hr, rfl⟩ := walkFlatFull_shape ha
      have h2 : 0 < r.length := List.length_pos.2 hr
      simp [List.length_append]
      omega
    refine List.pairwise_append.2 ⟨List.pairwise_append.2 ⟨ih1, pwFlatRest, ?_⟩,
      List.pairwise_append.2 ⟨pwF, List.pairwise_append.2 ⟨?_, pwD, ?_⟩, ?_⟩, ?_⟩
    · -- items of the subtree of the dir child never extend into the
      -- subtrees of the later siblings: their first components differ
      intro a ha b hb
      obtain ⟨ra, hra, hae⟩ := walkFlatFull_shape ha
      obtain ⟨m, rb, hm, hrb, hbe⟩ := walk_item_shape rest p b hb
      rintro ⟨t, ht, hbt⟩
      rw [hbe, hae] at hbt
      simp only [List.append_assoc, List.cons_append, List.nil_append] at hbt
      have h2 := List.append_cancel_left hbt
      injection h2 with h3 h4
      subst h3
      exact absurd (dirNames_sub_names hm) (by simpa [entryName] using hnot)
    · by_cases hc : pyStartswith n " - " = true <;> simp [hc]
    · intro a ha b hb
      have ha3 : a.length = p.length + 1 := by rw [mem_opt_singleton ha]; simp
      obtain ⟨m, rfl⟩ := mem_name_map hb
      exact not_strictExt_of_le (by simp [List.length_append]; omega)
    · intro a ha b hb
      obtain ⟨m, rfl⟩ := mem_name_map ha
      rcases List.mem_append.1 hb with hbN | hbD
      · have hb3 : b.length = p.length + 1 := by rw [mem_opt_singleton hbN]; simp
        exact not_strictExt_of_le (by simp [List.length_append]; omega)
      · obtain ⟨m2, rfl⟩ := mem_name_map hbD
        exact not_strictExt_of_le (by simp [List.length_append])
    · intro a ha b hb
      have ha2 : p.length + 2 ≤ a.length := by
        rcases List.mem_append.1 ha with haW | haR
        · exact hlenW a haW
        · exact walk_item_len haR
      have hb3 : b.length = p.length + 1 := by
        rcases List.mem_append.1 hb with hbF | hb2
        · obtain ⟨m, rfl⟩ := mem_name_map hbF
          simp
        · rcases List.mem_append.1 hb2 with hbN | hbD
          · rw [mem_opt_singleton hbN]; simp
          · obtain ⟨m, rfl⟩ := mem_name_map hbD
            simp
      exact not_strictExt_of_le (by omega)
  termination_by cs => sizeOf cs
  decreasing_by all_goals (simp; try omega)

/-- C3: on a well-formed tree (sibling names pairwise distinct at every
level, as on a real filesystem) the collected candidate sequence never
lists a path strictly before one of the candidates nested inside it: an
earlier item is never a strict ancestor of a later item, so every
candidate nested inside a candidate directory appears strictly before
that directory and every collected path is still valid when its rename
is applied. -/
theorem discovery_children_first (root : List Entry) (h : wfEntries root = true) :
    (collectItems root).Pairwise (fun a b => ¬ StrictExt a b) := by
  rw [collectItems_eq]
  exact pairwise_walkFlatFull root [] h

/-- Witness for C3 at a concrete nested tree. -/
theorem discovery_children_first_witness :
    wfEntries [Entry.dir " - d" [Entry.file " - c", Entry.dir " - e" []]] = true ∧
    (collectItems [Entry.dir " - d" [Entry.file " - c", Entry.dir " - e" []]]).Pairwise
      (fun a b => ¬ StrictExt a b) :=
  ⟨by simp [wfEntries, wfAux, nodupBool, entryName],
    discovery_children_first [Entry.dir " - d" [Entry.file " - c", Entry.dir " - e" []]]
      (by simp [wfEntries, wfAux, nodupBool, entryName])⟩

end Renamer
